import Mathlib

/-!
Shallow embedding of the `rlox` lexical scanner (`src/rlox/scanner.rs`).

The Rust scanner materializes the input as `chars : Vec<(usize, char)>`
(byte offset paired with character, from `str::char_indices`) and walks it
with two character-index cursors `start`/`current`.  We embed the input as a
`List Char`; the byte offsets are recoverable (they are the cumulative UTF-8
sizes) and are only ever used to slice the source string at character
boundaries, so a slice `&code[chars[i].0 .. chars[j].0]` is exactly the
character sublist from index `i` (inclusive) to `j` (exclusive).

Rust operations that can panic — `Vec` indexing out of bounds in `advance`
and `current_text`, and string slicing with a reversed range — are embedded
as `Option`-returning functions where `none` is the panic.  The error
handler is embedded as an append-only log of `(line, message)` pairs inside
the scanner state: the Rust `ErrorHandler::error(line, message)` call is
exactly one appended entry.

The Rust `while` loops are realized by structural recursion on an explicit
bound (the number of characters remaining), which every iteration of each
loop strictly decreases; lemmas below (`string_loop_eq`, `digits_loop_eq`,
`alnum_loop_eq`, `comment_loop_eq`, `scan_tokens_go_irrel`) certify that the
bound is irrelevant, i.e. that these functions satisfy exactly the loop
equations of the source.
-/

namespace Rlox

/-- The `Token` enum of `scanner.rs`.  `NumberValue` carries the value of
Rust's `f64` parse of the lexeme; we represent it exactly as a rational
(exact for the small decimal literals that appear in the theorems below). -/
inductive Token where
  | LeftParen | RightParen | LeftBrace | RightBrace
  | Comma | Dot | Minus | Plus | Semicolon | Slash | Star
  | Bang | BangEqual | Equal | EqualEqual
  | Greater | GreaterEqual | Less | LessEqual
  | Identifier (s : List Char)
  | StringValue (s : List Char)
  | NumberValue (v : ℚ)
  | And | Class | Else | False | Fun | For | If | Nil | Or
  | Print | Return | Super | This | True | Var | While
  | EOF
  deriving DecidableEq, Repr

/-- `TokenInfo` pairs a token with the line it was recognized on. -/
structure TokenInfo where
  token : Token
  line : Nat
  deriving DecidableEq, Repr

/-- The mutable state of `Scanner`.  `errors` is the log of
`error_handler.error(line, message)` calls, in order. -/
structure ScanState where
  chars : List Char
  had_errors : Bool
  line : Nat
  start : Nat
  current : Nat
  tokens : List TokenInfo
  errors : List (Nat × String)
  deriving DecidableEq, Repr

/-- Models Rust `char::is_digit(10)`: an ASCII decimal digit. -/
def rust_is_digit10 (c : Char) : Bool :=
  decide (48 ≤ c.toNat ∧ c.toNat ≤ 57)

/-- Models Rust `char::is_alphabetic` (the Unicode `Alphabetic` property) on
the character ranges exercised in this development: ASCII letters, the
Latin-1 letters (`ª`, `µ`, `º`, `À`–`Ö`, `Ø`–`ö`, `ø`–`ÿ`) and the basic
Cyrillic letters (U+0400–U+0481).  Outside these ranges the model returns
`false`; no theorem below instantiates it outside them. -/
def rust_is_alphabetic (c : Char) : Bool :=
  decide ((65 ≤ c.toNat ∧ c.toNat ≤ 90) ∨ (97 ≤ c.toNat ∧ c.toNat ≤ 122)
    ∨ c.toNat = 0xAA ∨ c.toNat = 0xB5 ∨ c.toNat = 0xBA
    ∨ (0xC0 ≤ c.toNat ∧ c.toNat ≤ 0xD6) ∨ (0xD8 ≤ c.toNat ∧ c.toNat ≤ 0xF6)
    ∨ (0xF8 ≤ c.toNat ∧ c.toNat ≤ 0xFF)
    ∨ (0x400 ≤ c.toNat ∧ c.toNat ≤ 0x481))

/-- Models Rust `char::is_numeric` on the characters exercised here (ASCII
digits; the further Unicode numeric characters are not used by any theorem
below). -/
def rust_is_numeric (c : Char) : Bool :=
  rust_is_digit10 c

/-- Models Rust `char::is_alphanumeric`, which is
`is_alphabetic(c) || is_numeric(c)`. -/
def rust_is_alphanumeric (c : Char) : Bool :=
  rust_is_alphabetic c || rust_is_numeric c

/-- Decimal value of a digit string (used by `parse_f64`). -/
def digitsToNat (s : List Char) : Nat :=
  s.foldl (fun a c => a * 10 + (c.toNat - 48)) 0

/-- Models Rust `str::parse::<f64>` on the lexemes the scanner can produce:
an optional integer part and an optional fractional part separated by `.`,
at least one of them non-empty, all characters ASCII digits.  Signs,
exponents and the other forms Rust's float grammar accepts never reach the
`parse` call in `Scanner::number`, and the value of every literal treated
by a theorem below is a small decimal, represented exactly. -/
def parse_f64 (s : List Char) : Option ℚ :=
  match s.splitOn '.' with
  | [a] => if a ≠ [] ∧ a.all rust_is_digit10 then some (digitsToNat a : ℚ) else none
  | [a, b] =>
      if (a ≠ [] ∨ b ≠ []) ∧ a.all rust_is_digit10 ∧ b.all rust_is_digit10 then
        some ((digitsToNat a : ℚ) + (digitsToNat b : ℚ) / (10 : ℚ) ^ b.length)
      else none
  | _ => none

/-- The `reserved_words()` table of `scanner.rs`: the sixteen keyword
spellings, in insertion order.  The Rust `HashMap` lookup is an exact
(case-sensitive) key equality, embedded below as `lookup_reserved`. -/
def reserved_words : List (List Char × Token) :=
  [ ("and".toList, Token.And), ("or".toList, Token.Or), ("if".toList, Token.If),
    ("else".toList, Token.Else), ("true".toList, Token.True), ("false".toList, Token.False),
    ("var".toList, Token.Var), ("fun".toList, Token.Fun), ("return".toList, Token.Return),
    ("class".toList, Token.Class), ("this".toList, Token.This), ("super".toList, Token.Super),
    ("for".toList, Token.For), ("while".toList, Token.While), ("print".toList, Token.Print),
    ("nil".toList, Token.Nil) ]

/-- `self.reserved_words.get(text)`: exact-key lookup in the table. -/
def lookup_reserved (txt : List Char) : Option Token :=
  (reserved_words.find? (fun p => decide (p.1 = txt))).map (fun p => p.2)

/-- `Scanner::is_at_end`. -/
def is_at_end (s : ScanState) : Bool :=
  decide (s.chars.length ≤ s.current)

/-- `Scanner::peek`: `'\0'` at end of input, else `chars[current]`. -/
def peek (s : ScanState) : Char :=
  if h : s.current < s.chars.length then s.chars.get ⟨s.current, h⟩ else '\x00'

/-- `Scanner::peek_next`: `'\0'` when fewer than two characters remain. -/
def peek_next (s : ScanState) : Char :=
  if is_at_end s then '\x00'
  else if h : s.current + 1 < s.chars.length then s.chars.get ⟨s.current + 1, h⟩
  else '\x00'

/-- `Scanner::advance`: reads `chars[current]` with no bounds check — at end
of input the Rust `Vec` index panics, embedded as `none`. -/
def advance (s : ScanState) : Option (Char × ScanState) :=
  if h : s.current < s.chars.length then
    some (s.chars.get ⟨s.current, h⟩, { s with current := s.current + 1 })
  else none

/-- `Scanner::matches` (renamed: `matches` is reserved in Lean): conditional
single-character consume. -/
def match_char (s : ScanState) (expected : Char) : Bool × ScanState :=
  if h : s.current < s.chars.length then
    if s.chars.get ⟨s.current, h⟩ = expected then
      (true, { s with current := s.current + 1 })
    else (false, s)
  else (false, s)

/-- `Scanner::add_token`: push `TokenInfo { line, token }`. -/
def add_token (s : ScanState) (t : Token) : ScanState :=
  { s with tokens := s.tokens ++ [⟨t, s.line⟩] }

/-- `self.error_handler.error(line, message)`: append one entry to the
diagnostic log. -/
def report_error (s : ScanState) (line : Nat) (msg : String) : ScanState :=
  { s with errors := s.errors ++ [(line, msg)] }

/-- `Scanner::current_text`: `&code[chars[start].0 .. chars[current].0]`.
Both `Vec` indexings panic when the index reaches `chars.len()`, and the
slice panics when the range is reversed; all three panics are `none`.  On
success the slice, taken between the byte offsets of characters `start` and
`current`, is exactly the character sublist `[start, current)`. -/
def current_text (s : ScanState) : Option (List Char) :=
  if s.start < s.chars.length then
    if s.current < s.chars.length then
      if s.start ≤ s.current then
        some ((s.chars.drop s.start).take (s.current - s.start))
      else none
    else none
  else none

/-- The `while peek() != '"' && !is_at_end()` loop of `Scanner::string`,
by recursion on the number of characters remaining (each iteration consumes
one character, so the bound is exact: see `string_go_eq`). -/
def string_go : Nat → ScanState → ScanState
  | 0, s => s
  | k + 1, s =>
    if h : s.current < s.chars.length then
      if s.chars.get ⟨s.current, h⟩ = '"' then s
      else
        string_go k
          { s with
            current := s.current + 1,
            line := if s.chars.get ⟨s.current, h⟩ = '\n' then s.line + 1 else s.line }
    else s

/-- The string-literal scanning loop at its exact bound. -/
def string_loop (s : ScanState) : ScanState :=
  string_go (s.chars.length - s.current) s

/-- The final step of `Scanner::string`, after the consuming loop: report
the unterminated literal, or emit the token over `current_text()`. -/
def string_emit (s1 : ScanState) : Option (Option Token × ScanState) :=
  if is_at_end s1 then
    some (none, report_error s1 s1.line "Unterminated string.")
  else
    (current_text s1).map (fun txt => (some (Token.StringValue txt), s1))

/-- `Scanner::string`. -/
def string (s : ScanState) : Option (Option Token × ScanState) :=
  string_emit (string_loop s)

/-- The `while peek().is_digit(10)` loop of `Scanner::number`. -/
def digits_go : Nat → ScanState → ScanState
  | 0, s => s
  | k + 1, s =>
    if h : s.current < s.chars.length then
      if rust_is_digit10 (s.chars.get ⟨s.current, h⟩) then
        digits_go k { s with current := s.current + 1 }
      else s
    else s

/-- The digit-run loop at its exact bound. -/
def digits_loop (s : ScanState) : ScanState :=
  digits_go (s.chars.length - s.current) s

/-- The fractional-part step of `Scanner::number`: when `peek()` is `.` and
`peek_next()` a digit, consume the dot and a further digit run.  The
`advance()` consuming the decimal point is in bounds because the guard just
saw `peek() == '.'`. -/
def number_frac (s1 : ScanState) : ScanState :=
  if peek s1 = '.' ∧ rust_is_digit10 (peek_next s1) then
    digits_loop { s1 with current := s1.current + 1 }
  else s1

/-- The final step of `Scanner::number`: parse `current_text()` and emit a
number token, or report the parse failure. -/
def number_emit (s2 : ScanState) : Option (Option Token × ScanState) :=
  match current_text s2 with
  | some txt =>
    match parse_f64 txt with
    | some v => some (some (Token.NumberValue v), s2)
    | none => some (none, report_error s2 s2.line "invalid float literal")
  | none => none

/-- `Scanner::number`: a maximal digit run, the conditional fractional part,
then parse and emit. -/
def number (s : ScanState) : Option (Option Token × ScanState) :=
  number_emit (number_frac (digits_loop s))

/-- The `while peek().is_alphanumeric()` loop of `Scanner::identifier`. -/
def alnum_go : Nat → ScanState → ScanState
  | 0, s => s
  | k + 1, s =>
    if h : s.current < s.chars.length then
      if rust_is_alphanumeric (s.chars.get ⟨s.current, h⟩) then
        alnum_go k { s with current := s.current + 1 }
      else s
    else s

/-- The identifier-continuation loop at its exact bound. -/
def alnum_loop (s : ScanState) : ScanState :=
  alnum_go (s.chars.length - s.current) s

/-- `Scanner::identifier`. -/
def identifier (s : ScanState) : Option (Option Token × ScanState) :=
  let s1 := alnum_loop s
  (current_text s1).map (fun txt =>
    match lookup_reserved txt with
    | some t => (some t, s1)
    | none => (some (Token.Identifier txt), s1))

/-- The `while peek() != '\n' { advance() }` comment loop of
`Scanner::scan_token`: at end of input `peek()` returns `'\0' ≠ '\n'`, so
the loop body calls `advance()` out of bounds — the Rust panic, `none`. -/
def comment_go : Nat → ScanState → Option ScanState
  | 0, s => if s.current < s.chars.length then some s else none
  | k + 1, s =>
    if h : s.current < s.chars.length then
      if s.chars.get ⟨s.current, h⟩ = '\n' then some s
      else comment_go k { s with current := s.current + 1 }
    else none

/-- The comment loop at its exact bound.  (With the bound exhausted the
cursor is at end of input, where the loop's next `advance()` panics, so the
`0`-case of `comment_go` is also `none` there.) -/
def comment_loop (s : ScanState) : Option ScanState :=
  comment_go (s.chars.length - s.current) s

/-- The two-character-operator step: `matches` on the second character and
choice of the one- or two-character token. -/
def op_token (s : ScanState) (two one : Token) : Option (Option Token × ScanState) :=
  some (some (if (match_char s '=').1 then two else one), (match_char s '=').2)

/-- The line-comment arm of the `/` case: `matches('/')` succeeded, so run
the comment loop (which panics at end of input) and emit nothing. -/
def slash_token (s : ScanState) : Option (Option Token × ScanState) :=
  if (match_char s '/').1 then
    (comment_loop (match_char s '/').2).map (fun s2 => (none, s2))
  else some (some Token.Slash, (match_char s '/').2)

/-- The default arm of the `match c`: digits enter number scanning,
alphabetic characters identifier scanning, anything else is the
"Unexpected character" error (reported, flag set, nothing emitted). -/
def other_token (c : Char) (s : ScanState) : Option (Option Token × ScanState) :=
  if rust_is_digit10 c then number s
  else if rust_is_alphabetic c then identifier s
  else
    some (none,
      report_error { s with had_errors := true } s.line
        ("Unexpected character " ++ c.toString))

/-- The `match c` dispatch of `Scanner::scan_token`, after `advance()` has
returned `c`: produces the optional token to add, or `none` for a panic. -/
def dispatch (c : Char) (s : ScanState) : Option (Option Token × ScanState) :=
  match c with
  | '(' => some (some Token.LeftParen, s)
  | ')' => some (some Token.RightParen, s)
  | '\x7b' => some (some Token.LeftBrace, s)
  | '\x7d' => some (some Token.RightBrace, s)
  | ',' => some (some Token.Comma, s)
  | '.' => some (some Token.Dot, s)
  | '-' => some (some Token.Minus, s)
  | '+' => some (some Token.Plus, s)
  | ';' => some (some Token.Semicolon, s)
  | '*' => some (some Token.Star, s)
  | '!' => op_token s Token.BangEqual Token.Bang
  | '=' => op_token s Token.EqualEqual Token.Equal
  | '<' => op_token s Token.LessEqual Token.Less
  | '>' => op_token s Token.GreaterEqual Token.Greater
  | '/' => slash_token s
  | ' ' | '\r' | '\t' => some (none, s)
  | '\n' => some (none, { s with line := s.line + 1 })
  | '"' => string s
  | _ => other_token c s

/-- `Scanner::scan_token`: advance, dispatch on the character, then
`add_token` if a token was produced. -/
def scan_token (s : ScanState) : Option ScanState :=
  match advance s with
  | none => none
  | some (c, s1) =>
    match dispatch c s1 with
    | none => none
    | some (some t, s2) => some (add_token s2 t)
    | some (none, s2) => some s2

/-- The `while !is_at_end()` loop of `Scanner::scan_tokens`: set `start` to
`current`, scan one lexeme, repeat.  Recursion is on a bound that exceeds
the number of remaining characters; since every `scan_token` consumes at
least one character the bound is never exhausted when `scan_tokens` supplies
it (`scan_tokens_go_irrel` below). -/
def scan_tokens_go : Nat → ScanState → Option ScanState
  | 0, _ => none
  | k + 1, s =>
    if is_at_end s then some s
    else
      match scan_token { s with start := s.current } with
      | none => none
      | some s' => scan_tokens_go k s'

/-- `Scanner::new`: the initial state for a given input. -/
def init_state (code : List Char) : ScanState :=
  { chars := code, had_errors := false, line := 1, start := 0, current := 0,
    tokens := [], errors := [] }

/-- `Scanner::scan_tokens`: run the scanning loop from the initial state,
then append the `EOF` token.  `none` is a Rust panic. -/
def scan_tokens (code : List Char) : Option ScanState :=
  (scan_tokens_go (code.length + 1) (init_state code)).map
    (fun s => add_token s Token.EOF)

/-! ### Preservation and monotonicity of the scanning primitives -/

theorem match_char_spec (s : ScanState) (e : Char) :
    (match_char s e).2.chars = s.chars ∧ (match_char s e).2.start = s.start ∧
    s.current ≤ (match_char s e).2.current ∧ (match_char s e).2.tokens = s.tokens ∧
    (match_char s e).2.errors = s.errors ∧ (match_char s e).2.had_errors = s.had_errors ∧
    (match_char s e).2.line = s.line := by
  unfold match_char
  split
  · split <;> simp
  · simp

theorem string_go_spec (k : Nat) (s : ScanState) :
    (string_go k s).chars = s.chars ∧ (string_go k s).start = s.start ∧
    s.current ≤ (string_go k s).current ∧ (string_go k s).tokens = s.tokens ∧
    (string_go k s).errors = s.errors ∧ (string_go k s).had_errors = s.had_errors := by
  induction k generalizing s with
  | zero => simp [string_go]
  | succ k ih =>
    simp only [string_go]
    split
    · split
      · exact ⟨rfl, rfl, Nat.le_refl _, rfl, rfl, rfl⟩
      · obtain ⟨h1, h2, h3, h4, h5, h6⟩ := ih _
        exact ⟨h1, h2, Nat.le_trans (Nat.le_succ _) h3, h4, h5, h6⟩
    · exact ⟨rfl, rfl, Nat.le_refl _, rfl, rfl, rfl⟩

theorem digits_go_spec (k : Nat) (s : ScanState) :
    (digits_go k s).chars = s.chars ∧ (digits_go k s).start = s.start ∧
    s.current ≤ (digits_go k s).current ∧ (digits_go k s).tokens = s.tokens ∧
    (digits_go k s).errors = s.errors ∧ (digits_go k s).had_errors = s.had_errors ∧
    (digits_go k s).line = s.line := by
  induction k generalizing s with
  | zero => simp [digits_go]
  | succ k ih =>
    simp only [digits_go]
    split
    · split
      · obtain ⟨h1, h2, h3, h4, h5, h6, h7⟩ := ih _
        exact ⟨h1, h2, Nat.le_trans (Nat.le_succ _) h3, h4, h5, h6, h7⟩
      · exact ⟨rfl, rfl, Nat.le_refl _, rfl, rfl, rfl, rfl⟩
    · exact ⟨rfl, rfl, Nat.le_refl _, rfl, rfl, rfl, rfl⟩

theorem alnum_go_spec (k : Nat) (s : ScanState) :
    (alnum_go k s).chars = s.chars ∧ (alnum_go k s).start = s.start ∧
    s.current ≤ (alnum_go k s).current ∧ (alnum_go k s).tokens = s.tokens ∧
    (alnum_go k s).errors = s.errors ∧ (alnum_go k s).had_errors = s.had_errors ∧
    (alnum_go k s).line = s.line := by
  induction k generalizing s with
  | zero => simp [alnum_go]
  | succ k ih =>
    simp only [alnum_go]
    split
    · split
      · obtain ⟨h1, h2, h3, h4, h5, h6, h7⟩ := ih _
        exact ⟨h1, h2, Nat.le_trans (Nat.le_succ _) h3, h4, h5, h6, h7⟩
      · exact ⟨rfl, rfl, Nat.le_refl _, rfl, rfl, rfl, rfl⟩
    · exact ⟨rfl, rfl, Nat.le_refl _, rfl, rfl, rfl, rfl⟩

theorem comment_go_spec (k : Nat) (s s' : ScanState) (h : comment_go k s = some s') :
    s'.chars = s.chars ∧ s'.start = s.start ∧ s.current ≤ s'.current ∧
    s'.tokens = s.tokens ∧ s'.errors = s.errors ∧ s'.had_errors = s.had_errors ∧
    s'.line = s.line := by
  induction k generalizing s with
  | zero =>
    simp only [comment_go] at h
    split at h
    · cases h
      exact ⟨rfl, rfl, Nat.le_refl _, rfl, rfl, rfl, rfl⟩
    · cases h
  | succ k ih =>
    simp only [comment_go] at h
    split at h
    · split at h
      · cases h
        exact ⟨rfl, rfl, Nat.le_refl _, rfl, rfl, rfl, rfl⟩
      · obtain ⟨h1, h2, h3, h4, h5, h6, h7⟩ := ih _ h
        exact ⟨h1, h2, Nat.le_trans (Nat.le_succ _) h3, h4, h5, h6, h7⟩
    · cases h


theorem string_loop_spec (s : ScanState) :
    (string_loop s).chars = s.chars ∧ (string_loop s).start = s.start ∧
    s.current ≤ (string_loop s).current ∧ (string_loop s).tokens = s.tokens ∧
    (string_loop s).errors = s.errors ∧ (string_loop s).had_errors = s.had_errors :=
  string_go_spec (s.chars.length - s.current) s

theorem digits_loop_spec (s : ScanState) :
    (digits_loop s).chars = s.chars ∧ (digits_loop s).start = s.start ∧
    s.current ≤ (digits_loop s).current ∧ (digits_loop s).tokens = s.tokens ∧
    (digits_loop s).errors = s.errors ∧ (digits_loop s).had_errors = s.had_errors ∧
    (digits_loop s).line = s.line :=
  digits_go_spec (s.chars.length - s.current) s

theorem alnum_loop_spec (s : ScanState) :
    (alnum_loop s).chars = s.chars ∧ (alnum_loop s).start = s.start ∧
    s.current ≤ (alnum_loop s).current ∧ (alnum_loop s).tokens = s.tokens ∧
    (alnum_loop s).errors = s.errors ∧ (alnum_loop s).had_errors = s.had_errors ∧
    (alnum_loop s).line = s.line :=
  alnum_go_spec (s.chars.length - s.current) s

theorem comment_loop_spec (s s' : ScanState) (h : comment_loop s = some s') :
    s'.chars = s.chars ∧ s'.start = s.start ∧ s.current ≤ s'.current ∧
    s'.tokens = s.tokens ∧ s'.errors = s.errors ∧ s'.had_errors = s.had_errors ∧
    s'.line = s.line :=
  comment_go_spec (s.chars.length - s.current) s s' h

/-! ### The bounded loops satisfy the `while` equations of the source -/

theorem string_loop_eq (s : ScanState) :
    string_loop s =
      if h : s.current < s.chars.length then
        if s.chars.get ⟨s.current, h⟩ = '"' then s
        else
          string_loop
            { s with
              current := s.current + 1,
              line := if s.chars.get ⟨s.current, h⟩ = '\n' then s.line + 1 else s.line }
      else s := by
  unfold string_loop
  rcases hk : s.chars.length - s.current with _ | k
  · have h : ¬ s.current < s.chars.length := by omega
    simp [string_go, h]
  · have h : s.current < s.chars.length := by omega
    simp only [string_go, dif_pos h]
    split
    · rfl
    · show string_go k _ = string_go _ _
      congr 1
      show k = s.chars.length - (s.current + 1)
      omega

theorem digits_loop_eq (s : ScanState) :
    digits_loop s =
      if h : s.current < s.chars.length then
        if rust_is_digit10 (s.chars.get ⟨s.current, h⟩) then
          digits_loop { s with current := s.current + 1 }
        else s
      else s := by
  unfold digits_loop
  rcases hk : s.chars.length - s.current with _ | k
  · have h : ¬ s.current < s.chars.length := by omega
    simp [digits_go, h]
  · have h : s.current < s.chars.length := by omega
    simp only [digits_go, dif_pos h]
    split
    · show digits_go k _ = digits_go _ _
      congr 1
      show k = s.chars.length - (s.current + 1)
      omega
    · rfl

theorem alnum_loop_eq (s : ScanState) :
    alnum_loop s =
      if h : s.current < s.chars.length then
        if rust_is_alphanumeric (s.chars.get ⟨s.current, h⟩) then
          alnum_loop { s with current := s.current + 1 }
        else s
      else s := by
  unfold alnum_loop
  rcases hk : s.chars.length - s.current with _ | k
  · have h : ¬ s.current < s.chars.length := by omega
    simp [alnum_go, h]
  · have h : s.current < s.chars.length := by omega
    simp only [alnum_go, dif_pos h]
    split
    · show alnum_go k _ = alnum_go _ _
      congr 1
      show k = s.chars.length - (s.current + 1)
      omega
    · rfl

theorem comment_loop_eq (s : ScanState) :
    comment_loop s =
      if h : s.current < s.chars.length then
        if s.chars.get ⟨s.current, h⟩ = '\n' then some s
        else comment_loop { s with current := s.current + 1 }
      else none := by
  unfold comment_loop
  rcases hk : s.chars.length - s.current with _ | k
  · have h : ¬ s.current < s.chars.length := by omega
    simp [comment_go, h]
  · have h : s.current < s.chars.length := by omega
    simp only [comment_go, dif_pos h]
    split
    · rfl
    · show comment_go k _ = comment_go _ _
      congr 1
      show k = s.chars.length - (s.current + 1)
      omega

/-! ### Specs of the literal and identifier scanners -/

theorem lookup_reserved_ne_eof (txt : List Char) (t : Token)
    (h : lookup_reserved txt = some t) : t ≠ Token.EOF := by
  unfold lookup_reserved at h
  obtain ⟨p, hp, rfl⟩ := Option.map_eq_some'.mp h
  have hm := List.mem_of_find?_eq_some hp
  simp only [reserved_words, List.mem_cons, List.not_mem_nil, or_false] at hm
  rcases hm with rfl | rfl | rfl | rfl | rfl | rfl | rfl | rfl | rfl | rfl | rfl | rfl
    | rfl | rfl | rfl | rfl <;> decide

theorem string_spec {s : ScanState} {t : Option Token} {s' : ScanState}
    (h : string s = some (t, s')) :
    s'.chars = s.chars ∧ s'.start = s.start ∧ s.current ≤ s'.current ∧
    s'.tokens = s.tokens ∧ (∃ e, s'.errors = s.errors ++ e) ∧
    s'.had_errors = s.had_errors ∧
    (∀ tk, t = some tk → ∃ txt, tk = Token.StringValue txt) := by
  obtain ⟨h1, h2, h3, h4, h5, h6⟩ := string_loop_spec s
  unfold string string_emit at h
  split at h
  · cases h
    refine ⟨h1, h2, h3, h4,
      ⟨[((string_loop s).line, "Unterminated string.")], ?_⟩, h6, by rintro tk ⟨⟩⟩
    show (string_loop s).errors ++ _ = s.errors ++ _
    rw [h5]
  · obtain ⟨txt, -, heq⟩ := Option.map_eq_some'.mp h
    cases heq
    exact ⟨h1, h2, h3, h4, ⟨[], by rw [← h5, List.append_nil]⟩, h6,
      by rintro tk ⟨⟩; exact ⟨txt, rfl⟩⟩

theorem number_frac_spec (s1 : ScanState) :
    (number_frac s1).chars = s1.chars ∧ (number_frac s1).start = s1.start ∧
    s1.current ≤ (number_frac s1).current ∧ (number_frac s1).tokens = s1.tokens ∧
    (number_frac s1).errors = s1.errors ∧ (number_frac s1).had_errors = s1.had_errors ∧
    (number_frac s1).line = s1.line := by
  unfold number_frac
  split
  · obtain ⟨h1, h2, h3, h4, h5, h6, h7⟩ := digits_loop_spec { s1 with current := s1.current + 1 }
    exact ⟨h1, h2, Nat.le_trans (Nat.le_succ _) h3, h4, h5, h6, h7⟩
  · exact ⟨rfl, rfl, Nat.le_refl _, rfl, rfl, rfl, rfl⟩

theorem number_spec {s : ScanState} {t : Option Token} {s' : ScanState}
    (h : number s = some (t, s')) :
    s'.chars = s.chars ∧ s'.start = s.start ∧ s.current ≤ s'.current ∧
    s'.tokens = s.tokens ∧ (∃ e, s'.errors = s.errors ++ e) ∧
    s'.had_errors = s.had_errors ∧
    (∀ tk, t = some tk → ∃ v, tk = Token.NumberValue v) := by
  obtain ⟨g1, g2, g3, g4, g5, g6, -⟩ := digits_loop_spec s
  obtain ⟨f1, f2, f3, f4, f5, f6, -⟩ := number_frac_spec (digits_loop s)
  have e1 : (number_frac (digits_loop s)).chars = s.chars := by rw [f1]; exact g1
  have e2 : (number_frac (digits_loop s)).start = s.start := by rw [f2]; exact g2
  have e3 : s.current ≤ (number_frac (digits_loop s)).current := Nat.le_trans g3 f3
  have e4 : (number_frac (digits_loop s)).tokens = s.tokens := by rw [f4]; exact g4
  have e5 : (number_frac (digits_loop s)).errors = s.errors := by rw [f5]; exact g5
  have e6 : (number_frac (digits_loop s)).had_errors = s.had_errors := by rw [f6]; exact g6
  unfold number number_emit at h
  split at h
  · split at h
    · cases h
      exact ⟨e1, e2, e3, e4, ⟨[], by rw [e5, List.append_nil]⟩, e6,
        by rintro tk ⟨⟩; exact ⟨_, rfl⟩⟩
    · cases h
      refine ⟨e1, e2, e3, e4,
        ⟨[((number_frac (digits_loop s)).line, "invalid float literal")], ?_⟩, e6,
        by rintro tk ⟨⟩⟩
      show (number_frac (digits_loop s)).errors ++ _ = s.errors ++ _
      rw [e5]
  · cases h

theorem identifier_spec {s : ScanState} {t : Option Token} {s' : ScanState}
    (h : identifier s = some (t, s')) :
    s'.chars = s.chars ∧ s'.start = s.start ∧ s.current ≤ s'.current ∧
    s'.tokens = s.tokens ∧ s'.errors = s.errors ∧
    s'.had_errors = s.had_errors ∧
    (∀ tk, t = some tk → tk ≠ Token.EOF) := by
  obtain ⟨g1, g2, g3, g4, g5, g6, -⟩ := alnum_loop_spec s
  unfold identifier at h
  obtain ⟨txt, -, heq⟩ := Option.map_eq_some'.mp h
  split at heq
  · cases heq
    refine ⟨g1, g2, g3, g4, g5, g6, ?_⟩
    rintro tk ⟨⟩
    exact lookup_reserved_ne_eof txt _ (by assumption)
  · cases heq
    exact ⟨g1, g2, g3, g4, g5, g6, by rintro tk ⟨⟩; simp⟩

theorem advance_spec {s : ScanState} {c : Char} {s1 : ScanState}
    (h : advance s = some (c, s1)) :
    ∃ hlt : s.current < s.chars.length,
      c = s.chars.get ⟨s.current, hlt⟩ ∧ s1 = { s with current := s.current + 1 } := by
  unfold advance at h
  split at h
  · simp only [Option.some.injEq, Prod.mk.injEq] at h
    exact ⟨by assumption, h.1.symm, h.2.symm⟩
  · cases h

theorem op_token_spec {s : ScanState} {two one : Token} {t : Option Token} {s' : ScanState}
    (h : op_token s two one = some (t, s')) (htwo : two ≠ Token.EOF) (hone : one ≠ Token.EOF) :
    s'.chars = s.chars ∧ s'.start = s.start ∧ s.current ≤ s'.current ∧
    s'.tokens = s.tokens ∧ s'.errors = s.errors ∧ s'.had_errors = s.had_errors ∧
    (∀ tk, t = some tk → tk ≠ Token.EOF) := by
  obtain ⟨m1, m2, m3, m4, m5, m6, -⟩ := match_char_spec s '='
  unfold op_token at h
  simp only [Option.some.injEq, Prod.mk.injEq] at h
  obtain ⟨rfl, rfl⟩ := h
  refine ⟨m1, m2, m3, m4, m5, m6, ?_⟩
  intro tk htk
  simp only [Option.some.injEq] at htk
  subst htk
  split
  · exact htwo
  · exact hone

theorem slash_token_spec {s : ScanState} {t : Option Token} {s' : ScanState}
    (h : slash_token s = some (t, s')) :
    s'.chars = s.chars ∧ s'.start = s.start ∧ s.current ≤ s'.current ∧
    s'.tokens = s.tokens ∧ s'.errors = s.errors ∧ s'.had_errors = s.had_errors ∧
    (∀ tk, t = some tk → tk = Token.Slash) := by
  obtain ⟨m1, m2, m3, m4, m5, m6, -⟩ := match_char_spec s '/'
  unfold slash_token at h
  split at h
  · obtain ⟨s2, hcl, heq⟩ := Option.map_eq_some'.mp h
    obtain ⟨c1, c2, c3, c4, c5, c6, -⟩ := comment_loop_spec _ s2 hcl
    simp only [Prod.mk.injEq] at heq
    obtain ⟨rfl, rfl⟩ := heq
    exact ⟨c1.trans m1, c2.trans m2, Nat.le_trans m3 c3, c4.trans m4, c5.trans m5,
      c6.trans m6, by rintro tk ⟨⟩⟩
  · simp only [Option.some.injEq, Prod.mk.injEq] at h
    obtain ⟨rfl, rfl⟩ := h
    refine ⟨m1, m2, m3, m4, m5, m6, ?_⟩
    intro tk htk
    simp only [Option.some.injEq] at htk
    exact htk.symm

theorem other_token_spec {c : Char} {s : ScanState} {t : Option Token} {s' : ScanState}
    (h : other_token c s = some (t, s')) :
    s'.chars = s.chars ∧ s'.start = s.start ∧ s.current ≤ s'.current ∧
    s'.tokens = s.tokens ∧ (∃ e, s'.errors = s.errors ++ e) ∧
    (∀ tk, t = some tk → tk ≠ Token.EOF) := by
  unfold other_token at h
  split at h
  · obtain ⟨h1, h2, h3, h4, h5, -, hshape⟩ := number_spec h
    refine ⟨h1, h2, h3, h4, h5, ?_⟩
    intro tk htk
    obtain ⟨v, rfl⟩ := hshape tk htk
    simp
  · split at h
    · obtain ⟨h1, h2, h3, h4, h5, -, hne⟩ := identifier_spec h
      exact ⟨h1, h2, h3, h4, ⟨[], by rw [h5, List.append_nil]⟩, hne⟩
    · simp only [Option.some.injEq, Prod.mk.injEq] at h
      obtain ⟨rfl, rfl⟩ := h
      exact ⟨rfl, rfl, Nat.le_refl _, rfl, ⟨[(s.line, "Unexpected character " ++ c.toString)], rfl⟩,
        by rintro tk ⟨⟩⟩

theorem dispatch_spec {c : Char} {s : ScanState} {t : Option Token} {s' : ScanState}
    (h : dispatch c s = some (t, s')) :
    s'.chars = s.chars ∧ s'.start = s.start ∧ s.current ≤ s'.current ∧
    s'.tokens = s.tokens ∧ (∃ e, s'.errors = s.errors ++ e) ∧
    (∀ tk, t = some tk → tk ≠ Token.EOF) := by
  have plain :
      ∀ (tk0 : Token) (s0 : ScanState), tk0 ≠ Token.EOF →
        some (some tk0, s0) = some (t, s') → s0 = s →
          s'.chars = s.chars ∧ s'.start = s.start ∧ s.current ≤ s'.current ∧
          s'.tokens = s.tokens ∧ (∃ e, s'.errors = s.errors ++ e) ∧
          (∀ tk, t = some tk → tk ≠ Token.EOF) := by
    intro tk0 s0 hne heq hs0
    subst hs0
    simp only [Option.some.injEq, Prod.mk.injEq] at heq
    obtain ⟨rfl, rfl⟩ := heq
    refine ⟨rfl, rfl, Nat.le_refl _, rfl, ⟨[], (List.append_nil _).symm⟩, ?_⟩
    intro tk htk
    simp only [Option.some.injEq] at htk
    subst htk
    exact hne
  have opcase :
      ∀ two one, op_token s two one = some (t, s') → two ≠ Token.EOF → one ≠ Token.EOF →
        s'.chars = s.chars ∧ s'.start = s.start ∧ s.current ≤ s'.current ∧
        s'.tokens = s.tokens ∧ (∃ e, s'.errors = s.errors ++ e) ∧
        (∀ tk, t = some tk → tk ≠ Token.EOF) := by
    intro two one hop htwo hone
    obtain ⟨h1, h2, h3, h4, h5, -, hne⟩ := op_token_spec hop htwo hone
    exact ⟨h1, h2, h3, h4, ⟨[], by rw [h5, List.append_nil]⟩, hne⟩
  unfold dispatch at h
  split at h
  · exact plain _ _ (by decide) h rfl
  · exact plain _ _ (by decide) h rfl
  · exact plain _ _ (by decide) h rfl
  · exact plain _ _ (by decide) h rfl
  · exact plain _ _ (by decide) h rfl
  · exact plain _ _ (by decide) h rfl
  · exact plain _ _ (by decide) h rfl
  · exact plain _ _ (by decide) h rfl
  · exact plain _ _ (by decide) h rfl
  · exact plain _ _ (by decide) h rfl
  · exact opcase _ _ h (by decide) (by decide)
  · exact opcase _ _ h (by decide) (by decide)
  · exact opcase _ _ h (by decide) (by decide)
  · exact opcase _ _ h (by decide) (by decide)
  · obtain ⟨h1, h2, h3, h4, h5, -, hsl⟩ := slash_token_spec h
    refine ⟨h1, h2, h3, h4, ⟨[], by rw [h5, List.append_nil]⟩, ?_⟩
    intro tk htk
    rw [hsl tk htk]
    simp
  · simp only [Option.some.injEq, Prod.mk.injEq] at h
    obtain ⟨rfl, rfl⟩ := h
    exact ⟨rfl, rfl, Nat.le_refl _, rfl, ⟨[], (List.append_nil _).symm⟩, by rintro tk ⟨⟩⟩
  · simp only [Option.some.injEq, Prod.mk.injEq] at h
    obtain ⟨rfl, rfl⟩ := h
    exact ⟨rfl, rfl, Nat.le_refl _, rfl, ⟨[], (List.append_nil _).symm⟩, by rintro tk ⟨⟩⟩
  · simp only [Option.some.injEq, Prod.mk.injEq] at h
    obtain ⟨rfl, rfl⟩ := h
    exact ⟨rfl, rfl, Nat.le_refl _, rfl, ⟨[], (List.append_nil _).symm⟩, by rintro tk ⟨⟩⟩
  · simp only [Option.some.injEq, Prod.mk.injEq] at h
    obtain ⟨rfl, rfl⟩ := h
    exact ⟨rfl, rfl, Nat.le_refl _, rfl, ⟨[], (List.append_nil _).symm⟩, by rintro tk ⟨⟩⟩
  · obtain ⟨h1, h2, h3, h4, h5, -, hshape⟩ := string_spec h
    refine ⟨h1, h2, h3, h4, h5, ?_⟩
    intro tk htk
    obtain ⟨txt, rfl⟩ := hshape tk htk
    simp
  · exact other_token_spec h

theorem scan_token_spec {s s' : ScanState} (h : scan_token s = some s') :
    s'.chars = s.chars ∧ s'.start = s.start ∧ s.current < s'.current ∧
    (∃ e, s'.errors = s.errors ++ e) ∧
    (∃ new, s'.tokens = s.tokens ++ new ∧ ∀ ti ∈ new, ti.token ≠ Token.EOF) := by
  unfold scan_token at h
  split at h
  · cases h
  · rename_i c s1 hadv
    obtain ⟨hlt, -, rfl⟩ := advance_spec hadv
    split at h
    · cases h
    · rename_i topt t s2 hdis
      obtain ⟨d1, d2, d3, d4, d5, dne⟩ := dispatch_spec hdis
      simp only [Option.some.injEq] at h
      subst h
      refine ⟨d1, d2, ?_, d5, ?_⟩
      · show s.current < s2.current
        exact Nat.lt_of_lt_of_le (Nat.lt_succ_self _) d3
      · refine ⟨[⟨t, s2.line⟩], ?_, ?_⟩
        · show s2.tokens ++ [(⟨t, s2.line⟩ : TokenInfo)] = s.tokens ++ _
          rw [d4]
        · intro ti hti
          simp only [List.mem_singleton] at hti
          subst hti
          exact dne t rfl
    · rename_i topt s2 hdis
      obtain ⟨d1, d2, d3, d4, d5, -⟩ := dispatch_spec hdis
      simp only [Option.some.injEq] at h
      subst h
      exact ⟨d1, d2, Nat.lt_of_lt_of_le (Nat.lt_succ_self _) d3, d5,
        ⟨[], by rw [d4, List.append_nil], fun ti hti => absurd hti (List.not_mem_nil ti)⟩⟩

theorem scan_tokens_go_spec (k : Nat) : ∀ {s s' : ScanState},
    scan_tokens_go k s = some s' →
    s'.chars = s.chars ∧ is_at_end s' = true ∧
    (s.start ≤ s.current → s'.start ≤ s'.current) ∧
    (∃ e, s'.errors = s.errors ++ e) ∧
    (∃ new, s'.tokens = s.tokens ++ new ∧ ∀ ti ∈ new, ti.token ≠ Token.EOF) := by
  induction k with
  | zero => intro s s' h; cases h
  | succ k ih =>
    intro s s' h
    unfold scan_tokens_go at h
    split at h
    · simp only [Option.some.injEq] at h
      subst h
      exact ⟨rfl, by assumption, id, ⟨[], (List.append_nil _).symm⟩,
        ⟨[], (List.append_nil _).symm, fun ti hti => absurd hti (List.not_mem_nil ti)⟩⟩
    · split at h
      · cases h
      · rename_i s1 hstep
        obtain ⟨c1, c2, c3, c4, c5⟩ := scan_token_spec hstep
        obtain ⟨r1, r2, r3, r4, r5⟩ := ih h
        have hc1 : s1.chars = s.chars := c1
        have hc2 : s1.start = s.current := c2
        have hc3 : s.current < s1.current := c3
        refine ⟨r1.trans hc1, r2, fun _ => r3 (by rw [hc2]; exact Nat.le_of_lt hc3), ?_, ?_⟩
        · obtain ⟨e1, he1⟩ := c4
          obtain ⟨e2, he2⟩ := r4
          refine ⟨e1 ++ e2, ?_⟩
          rw [he2, he1]
          have : s.errors = ({ s with start := s.current } : ScanState).errors := rfl
          rw [← this, List.append_assoc]
        · obtain ⟨n1, hn1, hm1⟩ := c5
          obtain ⟨n2, hn2, hm2⟩ := r5
          refine ⟨n1 ++ n2, ?_, ?_⟩
          · rw [hn2, hn1]
            have : s.tokens = ({ s with start := s.current } : ScanState).tokens := rfl
            rw [← this, List.append_assoc]
          · intro ti hti
            rcases List.mem_append.mp hti with hti | hti
            · exact hm1 ti hti
            · exact hm2 ti hti

theorem scan_tokens_go_irrel (k1 : Nat) : ∀ (k2 : Nat) (s : ScanState),
    s.chars.length - s.current < k1 → s.chars.length - s.current < k2 →
    scan_tokens_go k1 s = scan_tokens_go k2 s := by
  induction k1 with
  | zero => intro k2 s h1 h2; omega
  | succ k1 ih =>
    intro k2 s h1 h2
    cases k2 with
    | zero => omega
    | succ k2 =>
      show (if is_at_end s then some s
            else match scan_token { s with start := s.current } with
              | none => none
              | some s1 => scan_tokens_go k1 s1) =
          (if is_at_end s then some s
            else match scan_token { s with start := s.current } with
              | none => none
              | some s1 => scan_tokens_go k2 s1)
      by_cases hend : is_at_end s = true
      · rw [if_pos hend, if_pos hend]
      · rw [if_neg hend, if_neg hend]
        cases hstep : scan_token { s with start := s.current } with
        | none => rfl
        | some s1 =>
          obtain ⟨c1, -, c3, -, -⟩ := scan_token_spec hstep
          have hc1 : s1.chars = s.chars := c1
          have hc3 : s.current < s1.current := c3
          have hlt : s.current < s.chars.length := by
            simp only [is_at_end, decide_eq_true_eq] at hend
            omega
          exact ih k2 s1 (by rw [hc1]; omega) (by rw [hc1]; omega)

/-- Whenever `scan_tokens` returns, its token list is a list of non-`EOF`
tokens followed by exactly one `EOF` token carrying the final line. -/
theorem scan_tokens_eof_shape {code : List Char} {st : ScanState}
    (h : scan_tokens code = some st) :
    ∃ ts l, st.tokens = ts ++ [⟨Token.EOF, l⟩] ∧ ∀ ti ∈ ts, ti.token ≠ Token.EOF := by
  unfold scan_tokens at h
  obtain ⟨st', hgo, rfl⟩ := Option.map_eq_some'.mp h
  obtain ⟨-, -, -, -, new, hnew, hmem⟩ := scan_tokens_go_spec _ hgo
  refine ⟨st'.tokens, st'.line, rfl, ?_⟩
  intro ti hti
  apply hmem
  have : st'.tokens = new := by
    rw [hnew]
    show ([] : List TokenInfo) ++ new = new
    exact List.nil_append new
  rw [← this]
  exact hti

theorem advance_eq {s : ScanState} (hlt : s.current < s.chars.length) :
    advance s = some (s.chars.get ⟨s.current, hlt⟩, { s with current := s.current + 1 }) := by
  unfold advance
  rw [dif_pos hlt]

theorem scan_token_ws (s : ScanState) (hlt : s.current < s.chars.length)
    (hws : s.chars.get ⟨s.current, hlt⟩ = ' ' ∨ s.chars.get ⟨s.current, hlt⟩ = '\r' ∨
      s.chars.get ⟨s.current, hlt⟩ = '\t' ∨ s.chars.get ⟨s.current, hlt⟩ = '\n') :
    scan_token s =
      some { s with
        current := s.current + 1
        line := if s.chars.get ⟨s.current, hlt⟩ = '\n' then s.line + 1 else s.line } := by
  rcases hws with hc | hc | hc | hc <;>
    (unfold scan_token; rw [advance_eq hlt, hc]; rfl)

theorem scan_tokens_go_ws (k : Nat) : ∀ (s : ScanState),
    s.chars.length - s.current < k →
    (∀ i (hi : i < s.chars.length), s.current ≤ i →
        s.chars.get ⟨i, hi⟩ = ' ' ∨ s.chars.get ⟨i, hi⟩ = '\r' ∨
        s.chars.get ⟨i, hi⟩ = '\t' ∨ s.chars.get ⟨i, hi⟩ = '\n') →
    ∃ s', scan_tokens_go k s = some s' ∧ s'.tokens = s.tokens ∧ s'.errors = s.errors ∧
      s'.had_errors = s.had_errors := by
  induction k with
  | zero => intro s h1 _; omega
  | succ k ih =>
    intro s hk hws
    by_cases hend : is_at_end s = true
    · refine ⟨s, ?_, rfl, rfl, rfl⟩
      show (if is_at_end s then some s else _) = some s
      rw [if_pos hend]
    · have hlt : s.current < s.chars.length := by
        simp only [is_at_end, decide_eq_true_eq] at hend
        omega
      have hc := hws s.current hlt (Nat.le_refl _)
      have hstep := scan_token_ws { s with start := s.current } hlt hc
      obtain ⟨s', hgo, ht, he, hh⟩ := ih
        { s with
          start := s.current
          current := s.current + 1
          line := if s.chars.get ⟨s.current, hlt⟩ = '\n' then s.line + 1 else s.line }
        (by show s.chars.length - (s.current + 1) < k; omega)
        (fun i hi hle => hws i hi (Nat.le_of_succ_le hle))
      refine ⟨s', ?_, ht, he, hh⟩
      show (if is_at_end s then some s
            else match scan_token { s with start := s.current } with
              | none => none
              | some s1 => scan_tokens_go k s1) = some s'
      rw [if_neg hend, hstep]
      exact hgo

/-! ### Error paths -/

theorem string_unterminated {s s' : ScanState} (h : string s = some (none, s')) :
    s'.had_errors = s.had_errors ∧
    ∃ l, s'.errors = s.errors ++ [(l, "Unterminated string.")] := by
  obtain ⟨-, -, -, -, h5, h6⟩ := string_loop_spec s
  unfold string string_emit at h
  split at h
  · simp only [Option.some.injEq, Prod.mk.injEq] at h
    rw [← h.2]
    refine ⟨h6, (string_loop s).line, ?_⟩
    show (string_loop s).errors ++ _ = s.errors ++ _
    rw [h5]
  · obtain ⟨txt, -, heq⟩ := Option.map_eq_some'.mp h
    simp only [Prod.mk.injEq] at heq
    cases heq.1

theorem number_error {s s' : ScanState} (h : number s = some (none, s')) :
    s'.had_errors = s.had_errors ∧ ∃ l m, s'.errors = s.errors ++ [(l, m)] := by
  obtain ⟨-, -, -, -, g5, g6, -⟩ := digits_loop_spec s
  obtain ⟨-, -, -, -, f5, f6, -⟩ := number_frac_spec (digits_loop s)
  unfold number number_emit at h
  split at h
  · split at h
    · simp only [Option.some.injEq, Prod.mk.injEq] at h
      cases h.1
    · simp only [Option.some.injEq, Prod.mk.injEq] at h
      rw [← h.2]
      refine ⟨by rw [show (report_error (number_frac (digits_loop s)) _ _).had_errors =
          (number_frac (digits_loop s)).had_errors from rfl, f6, g6],
        (number_frac (digits_loop s)).line, "invalid float literal", ?_⟩
      show (number_frac (digits_loop s)).errors ++ _ = s.errors ++ _
      rw [f5, g5]
  · cases h

theorem scan_token_eq_of_advance {s : ScanState} {c : Char} {s1 : ScanState}
    (hadv : advance s = some (c, s1)) :
    scan_token s =
      match dispatch c s1 with
      | none => none
      | some (some t, s2) => some (add_token s2 t)
      | some (none, s2) => some s2 := by
  unfold scan_token
  rw [hadv]

theorem dispatch_unexpected {c : Char} (s : ScanState)
    (hn : c ∉ ['(', ')', '\x7b', '\x7d', ',', '.', '-', '+', ';', '*', '!', '=', '<', '>', '/',
      ' ', '\r', '\t', '\n', '"'])
    (hd : rust_is_digit10 c = false) (ha : rust_is_alphabetic c = false) :
    dispatch c s =
      some (none, report_error { s with had_errors := true } s.line
        ("Unexpected character " ++ c.toString)) := by
  unfold dispatch
  split <;>
    first
      | exact absurd (by decide) hn
      | simp [other_token, hd, ha]

theorem scan_token_unexpected {s : ScanState} {c : Char} {s1 : ScanState}
    (hadv : advance s = some (c, s1))
    (hn : c ∉ ['(', ')', '\x7b', '\x7d', ',', '.', '-', '+', ';', '*', '!', '=', '<', '>', '/',
      ' ', '\r', '\t', '\n', '"'])
    (hd : rust_is_digit10 c = false) (ha : rust_is_alphabetic c = false) :
    scan_token s =
      some (report_error { s1 with had_errors := true } s1.line
        ("Unexpected character " ++ c.toString)) := by
  rw [scan_token_eq_of_advance hadv, dispatch_unexpected s1 hn hd ha]

/-! ### The identifier path for non-ASCII alphabetic characters -/

theorem dispatch_nonascii {c : Char} (h128 : 128 ≤ c.toNat)
    (halpha : rust_is_alphabetic c = true) (s : ScanState) :
    dispatch c s = identifier s := by
  have hd : rust_is_digit10 c = false := by
    simp only [rust_is_digit10, decide_eq_false_iff_not, not_and, not_le]
    omega
  unfold dispatch
  split <;>
    first
      | exact absurd h128 (by decide)
      | simp [other_token, hd, halpha]

theorem lookup_reserved_nonascii {c : Char} (h128 : 128 ≤ c.toNat) (t : List Char) :
    lookup_reserved (c :: t) = none := by
  have hfind : reserved_words.find? (fun p => decide (p.1 = c :: t)) = none := by
    rw [List.find?_eq_none]
    intro p hp
    simp only [reserved_words, List.mem_cons, List.not_mem_nil, or_false] at hp
    rcases hp with rfl | rfl | rfl | rfl | rfl | rfl | rfl | rfl | rfl | rfl | rfl | rfl
      | rfl | rfl | rfl | rfl <;>
      · simp only [decide_eq_true_eq]
        intro heq
        injection heq with h1 _
        rw [← h1] at h128
        exact absurd h128 (by decide)
  unfold lookup_reserved
  rw [hfind]
  rfl

theorem scan_token_nonascii {c : Char} {rest : List Char} {st : ScanState}
    (h128 : 128 ≤ c.toNat) (halpha : rust_is_alphabetic c = true)
    (h : scan_token (init_state (c :: rest)) = some st) :
    st.had_errors = false ∧ st.errors = [] ∧
    ∃ t, st.tokens = [⟨Token.Identifier (c :: t), 1⟩] := by
  have hadv : advance (init_state (c :: rest)) =
      some (c, (⟨c :: rest, false, 1, 0, 1, [], []⟩ : ScanState)) := by
    unfold advance init_state
    rw [dif_pos (by simp : (0 : Nat) < (c :: rest).length)]
    rfl
  rw [scan_token_eq_of_advance hadv, dispatch_nonascii h128 halpha] at h
  obtain ⟨a1, a2, a3, a4, a5, a6, a7⟩ :=
    alnum_loop_spec (⟨c :: rest, false, 1, 0, 1, [], []⟩ : ScanState)
  simp only [identifier] at h
  cases hct : current_text (alnum_loop (⟨c :: rest, false, 1, 0, 1, [], []⟩ : ScanState)) with
  | none => rw [hct] at h; simp at h
  | some txt =>
    rw [hct] at h
    simp only [Option.map_some'] at h
    have htxt : ∃ t, txt = c :: t := by
      unfold current_text at hct
      split at hct
      · split at hct
        · split at hct
          · simp only [Option.some.injEq] at hct
            have hst : (alnum_loop (⟨c :: rest, false, 1, 0, 1, [], []⟩ : ScanState)).start =
                0 := a2
            have hch : (alnum_loop (⟨c :: rest, false, 1, 0, 1, [], []⟩ : ScanState)).chars =
                c :: rest := a1
            have hcu : 1 ≤ (alnum_loop (⟨c :: rest, false, 1, 0, 1, [], []⟩ : ScanState)).current :=
              a3
            rw [hst, hch] at hct
            rcases hn : (alnum_loop (⟨c :: rest, false, 1, 0, 1, [], []⟩ : ScanState)).current
              with _ | n
            · omega
            · rw [hn] at hct
              rw [List.drop_zero, Nat.sub_zero, List.take_succ_cons] at hct
              exact ⟨_, hct.symm⟩
          · cases hct
        · cases hct
      · cases hct
    obtain ⟨t, rfl⟩ := htxt
    rw [lookup_reserved_nonascii h128 t] at h
    have h2 : some (add_token (alnum_loop (⟨c :: rest, false, 1, 0, 1, [], []⟩ : ScanState))
        (Token.Identifier (c :: t))) = some st := h
    simp only [Option.some.injEq] at h2
    subst h2
    refine ⟨?_, ?_, t, ?_⟩
    · show (alnum_loop (⟨c :: rest, false, 1, 0, 1, [], []⟩ : ScanState)).had_errors = false
      rw [a6]
    · show (alnum_loop (⟨c :: rest, false, 1, 0, 1, [], []⟩ : ScanState)).errors = []
      rw [a5]
    · show (alnum_loop (⟨c :: rest, false, 1, 0, 1, [], []⟩ : ScanState)).tokens ++
        [(⟨Token.Identifier (c :: t),
          (alnum_loop (⟨c :: rest, false, 1, 0, 1, [], []⟩ : ScanState)).line⟩ : TokenInfo)] = _
      rw [a4, a7]
      rfl

theorem scan_tokens_go_succ (k : Nat) (s : ScanState) :
    scan_tokens_go (k + 1) s =
      if is_at_end s then some s
      else
        match scan_token { s with start := s.current } with
        | none => none
        | some s' => scan_tokens_go k s' := rfl

theorem scan_tokens_nonascii {c : Char} {rest : List Char} {st : ScanState}
    (h128 : 128 ≤ c.toNat) (halpha : rust_is_alphabetic c = true)
    (h : scan_tokens (c :: rest) = some st) :
    ∃ t suffix, st.tokens = ⟨Token.Identifier (c :: t), 1⟩ :: suffix := by
  unfold scan_tokens at h
  obtain ⟨st', hgo, rfl⟩ := Option.map_eq_some'.mp h
  rw [scan_tokens_go_succ] at hgo
  rw [if_neg (by simp [is_at_end, init_state] :
    ¬ is_at_end (init_state (c :: rest)) = true)] at hgo
  cases hstep : scan_token
      { init_state (c :: rest) with start := (init_state (c :: rest)).current } with
  | none => rw [hstep] at hgo; cases hgo
  | some s1 =>
    rw [hstep] at hgo
    have hstep2 : scan_token (init_state (c :: rest)) = some s1 := hstep
    obtain ⟨-, -, t, htok⟩ := scan_token_nonascii h128 halpha hstep2
    obtain ⟨-, -, -, -, new, hnew, -⟩ := scan_tokens_go_spec _ hgo
    refine ⟨t, new ++ [⟨Token.EOF, st'.line⟩], ?_⟩
    show st'.tokens ++ [(⟨Token.EOF, st'.line⟩ : TokenInfo)] = _
    rw [hnew, htok]
    simp

/-! ### The claims -/

/-- Claim C1: the claim states that scanning never goes out of bounds — a
line comment stops at the newline or at end of input, and `current_text` is
well-defined when a lexeme ends exactly at end of input.  The code refutes
it: on input `//` the comment loop's `advance()` indexes `chars[2]` past the
end, and on input `12` `current_text` indexes `chars[2]` past the end; both
are Rust panics (`none` in this embedding). -/
theorem claim_c1_panic :
    scan_tokens ['/', '/'] = none ∧ scan_tokens ['1', '2'] = none := by
  decide

/-- Claim C2: the claim states that a scanned string literal's payload is
the text strictly between the quotes and that the closing quote is consumed
with the lexeme.  The code refutes it: on the five-character input
`"a\nb"` the emitted `StringValue` payload is `"a\nb` — it includes the
opening quote — and the unconsumed closing quote is rescanned as a fresh
string lexeme, producing a spurious "Unterminated string." report (the line
counter is, as claimed, at 2). -/
theorem claim_c2_string_payload :
    scan_tokens ('"' :: 'a' :: '\n' :: 'b' :: '"' :: []) =
      some ⟨['"', 'a', '\n', 'b', '"'], false, 2, 4, 5,
        [⟨Token.StringValue ['"', 'a', '\n', 'b'], 2⟩, ⟨Token.EOF, 2⟩],
        [(2, "Unterminated string.")]⟩ := by
  decide

/-- Claim C3, counterexample: on the non-empty input `1` the scan panics
(out-of-bounds in `current_text`), so no token sequence at all is returned —
in particular none ending in `EOF`. -/
theorem claim_c3_counterexample : scan_tokens ['1'] = none := by
  decide

/-- Claim C3, amended: whenever `scan_tokens` returns a token sequence, the
`EOF` token is its last element and occurs nowhere else; and for every input
consisting only of spaces, carriage returns, tabs and newlines (the empty
input included) it does return, with exactly one token, the `EOF` token. -/
theorem claim_c3_amended :
    (∀ (code : List Char) (st : ScanState), scan_tokens code = some st →
      ∃ ts l, st.tokens = ts ++ [⟨Token.EOF, l⟩] ∧ ∀ ti ∈ ts, ti.token ≠ Token.EOF) ∧
    (∀ code : List Char, (∀ c ∈ code, c = ' ' ∨ c = '\r' ∨ c = '\t' ∨ c = '\n') →
      ∃ st, scan_tokens code = some st ∧ ∃ l, st.tokens = [⟨Token.EOF, l⟩]) := by
  constructor
  · intro code st h
    exact scan_tokens_eof_shape h
  · intro code hall
    obtain ⟨s', hgo, ht, -, -⟩ := scan_tokens_go_ws (code.length + 1) (init_state code)
      (by show code.length - 0 < code.length + 1; omega)
      (fun i hi _ => hall _ (code.get_mem i hi))
    refine ⟨add_token s' Token.EOF, ?_, s'.line, ?_⟩
    · unfold scan_tokens
      rw [hgo]
      rfl
    · show s'.tokens ++ [(⟨Token.EOF, s'.line⟩ : TokenInfo)] = _
      rw [ht]
      rfl

/-- Claim C3, witness: the amended claim applied to the concrete inputs `+`
(a returned sequence, `EOF` last and only last) and a single space (exactly
one token, `EOF`). -/
theorem claim_c3_witness :
    (∃ ts l, (⟨['+'], false, 1, 0, 1, [⟨Token.Plus, 1⟩, ⟨Token.EOF, 1⟩], []⟩ :
        ScanState).tokens = ts ++ [⟨Token.EOF, l⟩] ∧ ∀ ti ∈ ts, ti.token ≠ Token.EOF) ∧
    (∃ st, scan_tokens [' '] = some st ∧ ∃ l, st.tokens = [⟨Token.EOF, l⟩]) :=
  ⟨claim_c3_amended.1 ['+'] _ (by decide), claim_c3_amended.2 [' '] (by decide)⟩

/-- Claim C4, counterexample: the unterminated string literal `"x` is
reported through the Error Reporter but the scanner's `had_errors` flag is
left `false` — only the unexpected-character branch ever sets the flag. -/
theorem claim_c4_counterexample :
    ∃ st, scan_tokens ['"', 'x'] = some st ∧
      st.errors = [(1, "Unterminated string.")] ∧ st.had_errors = false :=
  ⟨⟨['"', 'x'], false, 1, 0, 2, [⟨Token.EOF, 1⟩], [(1, "Unterminated string.")]⟩,
    by decide, rfl, rfl⟩

/-- Claim C4, amended: every lexical error is reported through the Error
Reporter (one appended log entry), but only the unexpected-character error
also sets `had_errors`; the unterminated-string and malformed-number errors
leave the flag unchanged.  No error branch itself aborts the scan — each
returns normally — and whenever `scan_tokens` returns, the token sequence is
complete and ends in `EOF`. -/
theorem claim_c4_amended :
    (∀ (s : ScanState) (c : Char) (s1 : ScanState), advance s = some (c, s1) →
      c ∉ ['(', ')', '\x7b', '\x7d', ',', '.', '-', '+', ';', '*', '!', '=', '<', '>', '/',
        ' ', '\r', '\t', '\n', '"'] →
      rust_is_digit10 c = false → rust_is_alphabetic c = false →
      scan_token s = some (report_error { s1 with had_errors := true } s1.line
        ("Unexpected character " ++ c.toString))) ∧
    (∀ s s' : ScanState, string s = some (none, s') → s'.had_errors = s.had_errors ∧
      ∃ l, s'.errors = s.errors ++ [(l, "Unterminated string.")]) ∧
    (∀ s s' : ScanState, number s = some (none, s') → s'.had_errors = s.had_errors ∧
      ∃ l m, s'.errors = s.errors ++ [(l, m)]) ∧
    (∀ (code : List Char) (st : ScanState), scan_tokens code = some st →
      ∃ ts l, st.tokens = ts ++ [⟨Token.EOF, l⟩]) :=
  ⟨fun _ _ _ hadv hn hd ha => scan_token_unexpected hadv hn hd ha,
   fun _ _ h => string_unterminated h,
   fun _ _ h => number_error h,
   fun _ _ h => by obtain ⟨ts, l, hts, -⟩ := scan_tokens_eof_shape h; exact ⟨ts, l, hts⟩⟩

/-- Claim C4, witness: the amended claim applied to concrete states — the
unexpected character `¡`, the unterminated string `"x`, a (defensively
crafted) malformed number state, and the completed scan of `-`. -/
theorem claim_c4_witness :
    scan_token (init_state ['¡']) =
      some (report_error
        { (⟨['¡'], false, 1, 0, 1, [], []⟩ : ScanState) with had_errors := true } 1
        ("Unexpected character " ++ '¡'.toString)) ∧
    ((⟨['"', 'x'], false, 1, 0, 2, [], [(1, "Unterminated string.")]⟩ : ScanState).had_errors =
        (⟨['"', 'x'], false, 1, 0, 1, [], []⟩ : ScanState).had_errors ∧
      ∃ l, (⟨['"', 'x'], false, 1, 0, 2, [], [(1, "Unterminated string.")]⟩ :
          ScanState).errors =
        (⟨['"', 'x'], false, 1, 0, 1, [], []⟩ : ScanState).errors ++
          [(l, "Unterminated string.")]) ∧
    ((⟨['x'], false, 1, 0, 0, [], [(1, "invalid float literal")]⟩ : ScanState).had_errors =
        (⟨['x'], false, 1, 0, 0, [], []⟩ : ScanState).had_errors ∧
      ∃ l m, (⟨['x'], false, 1, 0, 0, [], [(1, "invalid float literal")]⟩ :
          ScanState).errors =
        (⟨['x'], false, 1, 0, 0, [], []⟩ : ScanState).errors ++ [(l, m)]) ∧
    (∃ ts l, (⟨['-'], false, 1, 0, 1, [⟨Token.Minus, 1⟩, ⟨Token.EOF, 1⟩], []⟩ :
        ScanState).tokens = ts ++ [⟨Token.EOF, l⟩]) :=
  ⟨claim_c4_amended.1 (init_state ['¡']) '¡' _ (by decide) (by decide) (by decide) (by decide),
   claim_c4_amended.2.1 _ _ (by decide),
   claim_c4_amended.2.2.1 _ _ (by decide),
   claim_c4_amended.2.2.2 ['-'] _ (by decide)⟩

/-- Claim C5: the claim states that `// comment\n1` scans to a single
`Number 1` token tagged line 2.  The code refutes it: after the comment
stops before the newline and the newline advances the line counter, the
digit `1` ends at end of input and `current_text` indexes `chars` out of
bounds — a Rust panic.  With one further character (a trailing space) the
lexeme no longer touches the end of input and the claimed tokens do appear,
tagged line 2.  -/
theorem claim_c5_comment_number :
    scan_tokens ("// comment\n1".toList) = none ∧
    scan_tokens ("// comment\n1 ".toList) =
      some ⟨"// comment\n1 ".toList, false, 2, 12, 13,
        [⟨Token.NumberValue 1, 2⟩, ⟨Token.EOF, 2⟩], []⟩ := by
  constructor
  · decide
  · decide

/-- Claim C6: the claim states that `forever` scans to one Identifier token
(maximal munch) and `Print` to an Identifier rather than the `print`
keyword.  The code refutes both at exactly those inputs: an identifier
lexeme that ends at end of input makes `current_text` index `chars` out of
bounds (a Rust panic).  With a trailing space the lexeme ends inside the
input and the claimed classification appears: one `Identifier "forever"`
(not `For` + `ever`) and one `Identifier "Print"` (not the `Print`
keyword). -/
theorem claim_c6_identifier :
    scan_tokens ("forever".toList) = none ∧ scan_tokens ("Print".toList) = none ∧
    scan_tokens ("forever ".toList) =
      some ⟨"forever ".toList, false, 1, 7, 8,
        [⟨Token.Identifier "forever".toList, 1⟩, ⟨Token.EOF, 1⟩], []⟩ ∧
    scan_tokens ("Print ".toList) =
      some ⟨"Print ".toList, false, 1, 5, 6,
        [⟨Token.Identifier "Print".toList, 1⟩, ⟨Token.EOF, 1⟩], []⟩ := by
  refine ⟨by decide, by decide, by decide, by decide⟩

/-- Claim C7: scanning `3.` yields a `Number 3` token followed by a `Dot`
token and then `EOF`, with no error report — the dot is not consumed into
the number because the character after it is not a digit. -/
theorem claim_c7_number_dot :
    scan_tokens ('3' :: '.' :: []) =
      some ⟨['3', '.'], false, 1, 1, 2,
        [⟨Token.NumberValue 3, 1⟩, ⟨Token.Dot, 1⟩, ⟨Token.EOF, 1⟩], []⟩ := by
  decide

/-- Claim C8: each of `!`, `=`, `<`, `>` followed immediately by `=` is
matched greedily as exactly one two-character token — scanning `!=` yields
exactly one `BangEqual` token followed by `EOF` (not `Bang` then `Equal`),
and likewise `==`, `<=`, `>=` yield exactly one `EqualEqual`, `LessEqual`,
`GreaterEqual` token respectively. -/
theorem claim_c8_two_char_ops :
    scan_tokens ('!' :: '=' :: []) =
      some ⟨['!', '='], false, 1, 0, 2, [⟨Token.BangEqual, 1⟩, ⟨Token.EOF, 1⟩], []⟩ ∧
    scan_tokens ('=' :: '=' :: []) =
      some ⟨['=', '='], false, 1, 0, 2, [⟨Token.EqualEqual, 1⟩, ⟨Token.EOF, 1⟩], []⟩ ∧
    scan_tokens ('<' :: '=' :: []) =
      some ⟨['<', '='], false, 1, 0, 2, [⟨Token.LessEqual, 1⟩, ⟨Token.EOF, 1⟩], []⟩ ∧
    scan_tokens ('>' :: '=' :: []) =
      some ⟨['>', '='], false, 1, 0, 2, [⟨Token.GreaterEqual, 1⟩, ⟨Token.EOF, 1⟩], []⟩ := by
  refine ⟨by decide, by decide, by decide, by decide⟩

/-- Claim C9: the cursor invariant `current ≥ start`.  `advance` increments
`current` by one and never touches `start`; `matches` never decreases
`current` and never touches `start`; a completed `scan_token` leaves `start`
unchanged and strictly increases `current`; and since the scanning loop sets
`start := current` at the top of each lexeme, any state reached from a state
with `start ≤ current` still satisfies `start ≤ current`. -/
theorem claim_c9_cursor :
    (∀ (s : ScanState) (c : Char) (s' : ScanState), advance s = some (c, s') →
      s'.current = s.current + 1 ∧ s'.start = s.start) ∧
    (∀ (s : ScanState) (e : Char), s.current ≤ (match_char s e).2.current ∧
      (match_char s e).2.start = s.start) ∧
    (∀ s s' : ScanState, scan_token s = some s' →
      s'.start = s.start ∧ s.current < s'.current) ∧
    (∀ s s' : ScanState, s.start ≤ s.current → ∀ k, scan_tokens_go k s = some s' →
      s'.start ≤ s'.current) := by
  refine ⟨?_, ?_, ?_, ?_⟩
  · intro s c s' h
    obtain ⟨hlt, -, rfl⟩ := advance_spec h
    exact ⟨rfl, rfl⟩
  · intro s e
    obtain ⟨-, h2, h3, -⟩ := match_char_spec s e
    exact ⟨h3, h2⟩
  · intro s s' h
    obtain ⟨-, h2, h3, -, -⟩ := scan_token_spec h
    exact ⟨h2, h3⟩
  · intro s s' hle k h
    obtain ⟨-, -, h3, -, -⟩ := scan_tokens_go_spec k h
    exact h3 hle

/-- Claim C9, witness: the invariant instantiated at concrete one-character
scans of `*` and `+`. -/
theorem claim_c9_witness :
    ((⟨['*'], false, 1, 0, 1, [], []⟩ : ScanState).current =
        (init_state ['*']).current + 1 ∧
      (⟨['*'], false, 1, 0, 1, [], []⟩ : ScanState).start = (init_state ['*']).start) ∧
    ((init_state ['+']).current ≤ (match_char (init_state ['+']) '=').2.current ∧
      (match_char (init_state ['+']) '=').2.start = (init_state ['+']).start) ∧
    ((⟨['+'], false, 1, 0, 1, [⟨Token.Plus, 1⟩], []⟩ : ScanState).start =
        (init_state ['+']).start ∧
      (init_state ['+']).current <
        (⟨['+'], false, 1, 0, 1, [⟨Token.Plus, 1⟩], []⟩ : ScanState).current) ∧
    (⟨['+'], false, 1, 0, 1, [⟨Token.Plus, 1⟩], []⟩ : ScanState).start ≤
      (⟨['+'], false, 1, 0, 1, [⟨Token.Plus, 1⟩], []⟩ : ScanState).current :=
  ⟨claim_c9_cursor.1 (init_state ['*']) '*' _ (by decide),
   claim_c9_cursor.2.1 (init_state ['+']) '=',
   claim_c9_cursor.2.2.1 (init_state ['+']) _ (by decide),
   claim_c9_cursor.2.2.2 (init_state ['+']) _ (by decide) 2 (by decide)⟩

/-- Claim C10, counterexample: on the input `é` the scanner does enter
identifier scanning, but the identifier lexeme ends at end of input, where
`current_text` indexes `chars` out of bounds — a Rust panic — so no
Identifier token is emitted. -/
theorem claim_c10_counterexample : scan_tokens ['é'] = none := by
  decide

/-- Claim C10, amended: for every input whose first character is a non-ASCII
alphabetic character (per the modelled Unicode classes), scanning enters the
identifier path: the unexpected-character error is never reported, and
whenever the scan of the first lexeme (or of the whole input) completes, the
first emitted token is an Identifier whose text starts with that character;
identifier continuation accepts every modelled Unicode alphanumeric
character by definition of the loop. -/
theorem claim_c10_amended :
    (∀ (c : Char) (rest : List Char) (st : ScanState),
      128 ≤ c.toNat → rust_is_alphabetic c = true →
      scan_token (init_state (c :: rest)) = some st →
      st.had_errors = false ∧ st.errors = [] ∧
      ∃ t, st.tokens = [⟨Token.Identifier (c :: t), 1⟩]) ∧
    (∀ (c : Char) (rest : List Char) (st : ScanState),
      128 ≤ c.toNat → rust_is_alphabetic c = true →
      scan_tokens (c :: rest) = some st →
      ∃ t suffix, st.tokens = ⟨Token.Identifier (c :: t), 1⟩ :: suffix) :=
  ⟨fun _ _ _ h128 ha h => scan_token_nonascii h128 ha h,
   fun _ _ _ h128 ha h => scan_tokens_nonascii h128 ha h⟩

/-- Claim C10, witness: the amended claim applied to the concrete inputs
`é ` (Latin-1) and `Я ` (Cyrillic). -/
theorem claim_c10_witness :
    ((⟨['é', ' '], false, 1, 0, 1, [⟨Token.Identifier ['é'], 1⟩], []⟩ :
        ScanState).had_errors = false ∧
      (⟨['é', ' '], false, 1, 0, 1, [⟨Token.Identifier ['é'], 1⟩], []⟩ :
        ScanState).errors = [] ∧
      ∃ t, (⟨['é', ' '], false, 1, 0, 1, [⟨Token.Identifier ['é'], 1⟩], []⟩ :
        ScanState).tokens = [⟨Token.Identifier ('é' :: t), 1⟩]) ∧
    (∃ t suffix,
      (⟨['Я', ' '], false, 1, 1, 2, [⟨Token.Identifier ['Я'], 1⟩, ⟨Token.EOF, 1⟩], []⟩ :
        ScanState).tokens = ⟨Token.Identifier ('Я' :: t), 1⟩ :: suffix) :=
  ⟨claim_c10_amended.1 'é' [' '] _ (by decide) (by decide) (by decide),
   claim_c10_amended.2 'Я' [' '] _ (by decide) (by decide) (by decide)⟩

end Rlox
